import Mathlib

/-!
# Verification of the llm-aggregator model-catalog engine

Shallow embedding of the core of `llm_aggregator` (the in-memory model store,
the deduplicating enrichment queue, the enrichment merge logic, the provider
payload parser and the brain-response JSON extractor), translated from

  * `src/llm_aggregator/services/model_store.py`  (`ModelStore`)
  * `src/llm_aggregator/services/enrich_model/enrich_model.py`
  * `src/llm_aggregator/services/enrich_model/_extract_json_object.py`
  * `src/llm_aggregator/services/model_sources.py`
  * `src/llm_aggregator/models.py` (data classes)

Python dictionaries are modelled as insertion-ordered association lists
(`Dict` below) with the CPython semantics: updating an existing key keeps its
position, inserting a new key appends.  Python sets are modelled as
duplicate-free lists used only through membership, insertion and removal.
JSON values (the payloads flowing through the system) are modelled by the
`Json` inductive; `json.loads` is modelled by `jsonLoads`, a strict JSON
parser for the fragment exercised by this code base (null / booleans /
integer numerals / strings with the common escapes / arrays / objects).
-/

namespace LlmAggregator

/-- JSON values, as produced by Python's `json.loads` on provider and brain
payloads.  Numbers are modelled as integers (the code base never relies on
float payloads). -/
inductive Json where
  | null : Json
  | bool (b : Bool) : Json
  | num (n : Int) : Json
  | str (s : String) : Json
  | arr (elems : List Json) : Json
  | obj (fields : List (String × Json)) : Json

mutual

/-- Structural equality test on JSON values (Python `==` on parsed payloads). -/
def jsonBeq : Json → Json → Bool
  | Json.null, Json.null => true
  | Json.bool a, Json.bool b => a == b
  | Json.num a, Json.num b => a == b
  | Json.str a, Json.str b => a == b
  | Json.arr a, Json.arr b => jsonBeqList a b
  | Json.obj a, Json.obj b => jsonBeqFields a b
  | _, _ => false

def jsonBeqList : List Json → List Json → Bool
  | [], [] => true
  | x :: xs, y :: ys => jsonBeq x y && jsonBeqList xs ys
  | _, _ => false

def jsonBeqFields : List (String × Json) → List (String × Json) → Bool
  | [], [] => true
  | (k, v) :: xs, (k', v') :: ys => k == k' && jsonBeq v v' && jsonBeqFields xs ys
  | _, _ => false

end

mutual

theorem jsonBeq_refl : ∀ (a : Json), jsonBeq a a = true
  | Json.null => rfl
  | Json.bool b => by simp [jsonBeq]
  | Json.num n => by simp [jsonBeq]
  | Json.str s => by simp [jsonBeq]
  | Json.arr xs => by simpa [jsonBeq] using jsonBeqList_refl xs
  | Json.obj fs => by simpa [jsonBeq] using jsonBeqFields_refl fs

theorem jsonBeqList_refl : ∀ (l : List Json), jsonBeqList l l = true
  | [] => rfl
  | x :: xs => by
      simp only [jsonBeqList, Bool.and_eq_true]
      exact ⟨jsonBeq_refl x, jsonBeqList_refl xs⟩

theorem jsonBeqFields_refl : ∀ (l : List (String × Json)), jsonBeqFields l l = true
  | [] => rfl
  | (k, v) :: xs => by
      simp only [jsonBeqFields, Bool.and_eq_true, beq_self_eq_true, true_and]
      exact ⟨jsonBeq_refl v, jsonBeqFields_refl xs⟩

end

mutual

theorem jsonBeq_eq : ∀ (a b : Json), jsonBeq a b = true → a = b
  | Json.null, b, h => by cases b <;> simp_all [jsonBeq]
  | Json.bool x, b, h => by cases b <;> simp_all [jsonBeq]
  | Json.num x, b, h => by cases b <;> simp_all [jsonBeq]
  | Json.str x, b, h => by cases b <;> simp_all [jsonBeq]
  | Json.arr xs, Json.arr ys, h => by
      simp only [jsonBeq] at h
      exact congrArg Json.arr (jsonBeqList_eq xs ys h)
  | Json.arr xs, Json.null, h => by simp [jsonBeq] at h
  | Json.arr xs, Json.bool _, h => by simp [jsonBeq] at h
  | Json.arr xs, Json.num _, h => by simp [jsonBeq] at h
  | Json.arr xs, Json.str _, h => by simp [jsonBeq] at h
  | Json.arr xs, Json.obj _, h => by simp [jsonBeq] at h
  | Json.obj xs, Json.obj ys, h => by
      simp only [jsonBeq] at h
      exact congrArg Json.obj (jsonBeqFields_eq xs ys h)
  | Json.obj xs, Json.null, h => by simp [jsonBeq] at h
  | Json.obj xs, Json.bool _, h => by simp [jsonBeq] at h
  | Json.obj xs, Json.num _, h => by simp [jsonBeq] at h
  | Json.obj xs, Json.str _, h => by simp [jsonBeq] at h
  | Json.obj xs, Json.arr _, h => by simp [jsonBeq] at h

theorem jsonBeqList_eq : ∀ (a b : List Json), jsonBeqList a b = true → a = b
  | [], [], _ => rfl
  | [], _ :: _, h => by simp [jsonBeqList] at h
  | _ :: _, [], h => by simp [jsonBeqList] at h
  | x :: xs, y :: ys, h => by
      simp only [jsonBeqList, Bool.and_eq_true] at h
      rw [jsonBeq_eq x y h.1, jsonBeqList_eq xs ys h.2]

theorem jsonBeqFields_eq :
    ∀ (a b : List (String × Json)), jsonBeqFields a b = true → a = b
  | [], [], _ => rfl
  | [], _ :: _, h => by simp [jsonBeqFields] at h
  | _ :: _, [], h => by simp [jsonBeqFields] at h
  | (k, v) :: xs, (k', v') :: ys, h => by
      simp only [jsonBeqFields, Bool.and_eq_true] at h
      obtain ⟨⟨hk, hv⟩, hrest⟩ := h
      rw [eq_of_beq hk, jsonBeq_eq v v' hv, jsonBeqFields_eq xs ys hrest]

end

instance : DecidableEq Json := fun a b =>
  if h : jsonBeq a b = true then isTrue (jsonBeq_eq a b h)
  else isFalse (fun e => h (e ▸ jsonBeq_refl a))

/-- `d[k]` lookup on an insertion-ordered dictionary (association list). -/
def dictLookup {α β : Type} [DecidableEq α] : List (α × β) → α → Option β
  | [], _ => none
  | (k', v) :: rest, k => if k' = k then some v else dictLookup rest k

/-- `k in d` on a dictionary. -/
def dictContains {α β : Type} [DecidableEq α] (d : List (α × β)) (k : α) : Bool :=
  (dictLookup d k).isSome

/-- `d[k] = v` on a dictionary: CPython updates the value in place when the
key is present and appends a fresh entry otherwise. -/
def dictInsert {α β : Type} [DecidableEq α] : List (α × β) → α → β → List (α × β)
  | [], k, v => [(k, v)]
  | (k', v') :: rest, k, v =>
      if k' = k then (k', v) :: rest else (k', v') :: dictInsert rest k v

/-- `d.setdefault(k, v)`: insert only when the key is absent. -/
def dictSetdefault {α β : Type} [DecidableEq α] (d : List (α × β)) (k : α) (v : β) :
    List (α × β) :=
  if dictContains d k then d else dictInsert d k v

/-- `d.pop(k, None)`: drop every binding of `k` (a well-formed dict has at
most one). -/
def dictPop {α β : Type} [DecidableEq α] (d : List (α × β)) (k : α) : List (α × β) :=
  d.filter (fun p => ¬ p.1 = k)

/-- `list(d.keys())`. -/
def dictKeys {α β : Type} (d : List (α × β)) : List α :=
  d.map Prod.fst

/-- A dictionary has no duplicate keys. -/
def NoDupKeys {α β : Type} (d : List (α × β)) : Prop :=
  (dictKeys d).Nodup

theorem dictLookup_insert_self {α β : Type} [DecidableEq α]
    (d : List (α × β)) (k : α) (v : β) :
    dictLookup (dictInsert d k v) k = some v := by
  induction d with
  | nil => simp [dictInsert, dictLookup]
  | cons p rest ih =>
      by_cases h : p.1 = k
      · simp [dictInsert, dictLookup, h]
      · simp [dictInsert, dictLookup, h, ih]

theorem dictLookup_insert_ne {α β : Type} [DecidableEq α]
    (d : List (α × β)) (k k' : α) (v : β) (hne : k' ≠ k) :
    dictLookup (dictInsert d k' v) k = dictLookup d k := by
  induction d with
  | nil => simp [dictInsert, dictLookup, hne]
  | cons p rest ih =>
      by_cases h : p.1 = k'
      · cases p with
        | mk pk pv =>
            simp only at h
            subst h
            simp [dictInsert, dictLookup, hne]
      · by_cases h2 : p.1 = k
        · simp [dictInsert, dictLookup, h, h2, Ne.symm hne]
        · simp [dictInsert, dictLookup, h, h2, ih]

theorem dictInsert_eq_of_lookup {α β : Type} [DecidableEq α]
    (d : List (α × β)) (k : α) (v : β) (h : dictLookup d k = some v) :
    dictInsert d k v = d := by
  induction d with
  | nil => simp [dictLookup] at h
  | cons p rest ih =>
      by_cases hk : p.1 = k
      · simp [dictLookup, hk] at h
        cases p with
        | mk pk pv => simp at hk; subst hk; simp at h; simp [dictInsert, h]
      · simp [dictLookup, hk] at h
        simp [dictInsert, hk, ih h]

theorem dictContains_insert {α β : Type} [DecidableEq α]
    (d : List (α × β)) (k k' : α) (v : β) :
    dictContains (dictInsert d k' v) k = (dictContains d k || decide (k = k')) := by
  by_cases h : k = k'
  · subst h
    simp [dictContains, dictLookup_insert_self]
  · have hne : k' ≠ k := fun hh => h hh.symm
    simp [dictContains, dictLookup_insert_ne d k k' v hne, h]

/-- Looking a key up in a filtered dictionary whose filter predicate depends
only on the key and keeps `k` gives the original lookup result. -/
theorem dictLookup_filter_key {α β : Type} [DecidableEq α]
    (d : List (α × β)) (p : α → Bool) (k : α) (hk : p k = true) :
    dictLookup (d.filter (fun e => p e.1)) k = dictLookup d k := by
  induction d with
  | nil => simp
  | cons e rest ih =>
      by_cases h : e.1 = k
      · subst h
        simp [List.filter, hk, dictLookup, ih]
      · by_cases hp : p e.1
        · simp [List.filter, hp, dictLookup, h, ih]
        · simp [List.filter, hp, dictLookup, h, ih]

/-!
## Data model (`models.py`)
-/

/-- `FilesSizeGathererConfig`: external command used to gather model file
sizes (`path`, `base_path`, `timeout_seconds`, the latter normalised to 15
by `__post_init__` when unset). -/
structure FilesSizeGathererConfig where
  path : String
  base_path : String
  timeout_seconds : Int
  deriving DecidableEq, Repr

/-- `ProviderConfig`: one upstream OpenAI-compatible endpoint.  The frozen
dataclass compares on all fields; `__post_init__` defaults
`internal_base_url` to `base_url`, so here `internal_base_url` is a plain
string. -/
structure ProviderConfig where
  base_url : String
  internal_base_url : String
  api_key : Option String
  files_size_gatherer : Option FilesSizeGathererConfig
  deriving DecidableEq, Repr

/-- `ModelKey`: stable identity of a model, `(provider, model id)`. -/
structure ModelKey where
  provider : ProviderConfig
  id : String
  deriving DecidableEq, Repr

/-- `ModelInfo`: a model discovered from a provider — its key plus the raw
`/v1/models` entry. -/
structure ModelInfo where
  key : ModelKey
  raw : List (String × Json)
  deriving DecidableEq

/-- `EnrichedModel`: enrichment produced by the brain for one key
(`enriched` is `Dict | None` in the source). -/
structure EnrichedModel where
  key : ModelKey
  enriched : Option (List (String × Json))
  deriving DecidableEq

/-!
## The model store (`services/model_store.py`, class `ModelStore`)

`_models` and `_enriched` are Python dicts (insertion-ordered association
lists here), `_queue` an `asyncio.Queue` (FIFO list, head = next item to be
popped), `_queued_keys` a `set` (duplicate-free list used through
membership).  All public operations run under the store lock, so they are
modelled as sequential state transformers. -/

structure StoreState where
  models : List (ModelKey × ModelInfo)
  enriched : List (ModelKey × EnrichedModel)
  queue : List ModelInfo
  queued_keys : List ModelKey
  last_update_ts : Int
  deriving DecidableEq

/-- `ModelStore.__init__`: everything empty, `last_update_ts = 0`. -/
def initStore : StoreState :=
  { models := [], enriched := [], queue := [], queued_keys := [], last_update_ts := 0 }

/-- `ModelStore._enqueue_no_duplicate`: push onto the queue unless the key
is already marked queued. -/
def enqueueNoDuplicate (st : StoreState) (m : ModelInfo) : StoreState :=
  if m.key ∈ st.queued_keys then st
  else { st with queue := st.queue ++ [m], queued_keys := m.key :: st.queued_keys }

/-- `{m.key: m for m in new_models}`: CPython dict-comprehension semantics —
first-occurrence order, last-occurrence value. -/
def newByKey (new_models : List ModelInfo) : List (ModelKey × ModelInfo) :=
  new_models.foldl (fun d m => dictInsert d m.key m) []

/-- Body of the `# Add or update models` loop of `update_models`: replace
the stored entry when the key exists, otherwise insert it and enqueue the
model for enrichment. -/
def addOrUpdate (st : StoreState) (kv : ModelKey × ModelInfo) : StoreState :=
  if dictContains st.models kv.1 then
    { st with models := dictInsert st.models kv.1 kv.2 }
  else
    enqueueNoDuplicate { st with models := dictInsert st.models kv.1 kv.2 } kv.2

/-- `removed_keys = set(self._models.keys()) - set(new_by_key.keys())`. -/
def removedKeys (st : StoreState) (new_by_key : List (ModelKey × ModelInfo)) :
    List ModelKey :=
  (dictKeys st.models).filter (fun k => ¬ dictContains new_by_key k)

/-- The `# Drop models that vanished` loop of `update_models`: pop each
removed key from `models` and `enriched` and discard it from
`queued_keys`.  (The queue itself is not touched.) -/
def dropRemoved (st : StoreState) (new_by_key : List (ModelKey × ModelInfo)) :
    StoreState :=
  { st with
    models := st.models.filter (fun p => ¬ p.1 ∈ removedKeys st new_by_key)
    enriched := st.enriched.filter (fun p => ¬ p.1 ∈ removedKeys st new_by_key)
    queued_keys := st.queued_keys.filter (fun k => ¬ k ∈ removedKeys st new_by_key) }

/-- `ModelStore.update_models(new_models)` at wall-clock time `now`:
drop vanished keys from `models`, `enriched` and `queued_keys`, then add or
update each incoming entry (new keys are enqueued), then stamp
`last_update_ts`. -/
def updateModels (st : StoreState) (new_models : List ModelInfo) (now : Int) : StoreState :=
  { (newByKey new_models).foldl addOrUpdate (dropRemoved st (newByKey new_models)) with
    last_update_ts := now }

/-- The pop loop of `get_enrichment_batch`: take up to `n` items off the
queue front, discarding each popped key from `queued_keys`. -/
def batchLoop : Nat → StoreState → List ModelInfo × StoreState
  | 0, st => ([], st)
  | n + 1, st =>
      match st.queue with
      | [] => ([], st)
      | m :: rest =>
          let st' : StoreState :=
            { st with queue := rest, queued_keys := st.queued_keys.filter (fun k => ¬ k = m.key) }
          let r := batchLoop n st'
          (m :: r.1, r.2)

/-- `ModelStore.get_enrichment_batch(max_batch_size)`: non-blocking pop of
up to `max_batch_size` queued models (`[]` when the bound is ≤ 0). -/
def getEnrichmentBatch (st : StoreState) (max_batch_size : Int) : List ModelInfo × StoreState :=
  if max_batch_size ≤ 0 then ([], st) else batchLoop max_batch_size.toNat st

/-- `ModelStore.apply_enrichment(enriched_models)`: record each result whose
key is still present; unknown keys are ignored. -/
def applyEnrichment (st : StoreState) (enriched_models : List EnrichedModel) : StoreState :=
  enriched_models.foldl
    (fun acc em =>
      if dictContains acc.models em.key then
        { acc with enriched := dictInsert acc.enriched em.key em }
      else acc)
    st

/-- `ModelStore.requeue_models(models)`: re-enqueue each model that is still
known, with the duplicate guard. -/
def requeueModels (st : StoreState) (models : List ModelInfo) : StoreState :=
  models.foldl
    (fun acc m => if dictContains acc.models m.key then enqueueNoDuplicate acc m else acc)
    st

/-- `ModelStore.clear()`: drop everything and reset the timestamp. -/
def clearStore (_st : StoreState) : StoreState :=
  initStore

/-- States reachable from the freshly constructed store through the public
mutating operations (`update_models`, `get_enrichment_batch`,
`apply_enrichment`, `requeue_models`, `clear`). -/
inductive Reachable : StoreState → Prop
  | init : Reachable initStore
  | update {st} (S : List ModelInfo) (now : Int) :
      Reachable st → Reachable (updateModels st S now)
  | batch {st} (n : Int) :
      Reachable st → Reachable (getEnrichmentBatch st n).2
  | apply {st} (ems : List EnrichedModel) :
      Reachable st → Reachable (applyEnrichment st ems)
  | requeue {st} (ms : List ModelInfo) :
      Reachable st → Reachable (requeueModels st ms)
  | clear {st} :
      Reachable st → Reachable (clearStore st)

/-!
## Helper lemmas about the store operations
-/

theorem dictLookup_isSome_of_mem {α β : Type} [DecidableEq α]
    {d : List (α × β)} {kv : α × β} (h : kv ∈ d) :
    dictContains d kv.1 = true := by
  induction d with
  | nil => simp at h
  | cons p rest ih =>
      rcases List.mem_cons.mp h with h1 | h2
      · subst h1
        simp [dictContains, dictLookup]
      · by_cases hk : p.1 = kv.1
        · simp [dictContains, dictLookup, hk]
        · simpa [dictContains, dictLookup, hk] using ih h2

theorem mem_dictKeys_of_contains {α β : Type} [DecidableEq α]
    {d : List (α × β)} {k : α} (h : dictContains d k = true) :
    k ∈ dictKeys d := by
  induction d with
  | nil => simp [dictContains, dictLookup] at h
  | cons p rest ih =>
      by_cases hk : p.1 = k
      · simp [dictKeys, hk]
      · simp only [dictContains, dictLookup, hk, if_neg] at h
        have := ih h
        simp only [dictKeys, List.map_cons, List.mem_cons]
        exact Or.inr (by simpa [dictKeys] using this)

/-- Entries of `dictInsert d k v` come from `d` or are the updated binding
of `k`. -/
theorem mem_dictInsert {α β : Type} [DecidableEq α]
    {d : List (α × β)} {k : α} {v : β} {q : α × β} (h : q ∈ dictInsert d k v) :
    q ∈ d ∨ (q.1 = k ∧ q.2 = v) := by
  induction d with
  | nil =>
      simp [dictInsert] at h
      subst h
      simp
  | cons p rest ih =>
      by_cases hp : p.1 = k
      · simp only [dictInsert, hp, if_pos] at h
        rcases List.mem_cons.mp h with h1 | h1
        · subst h1; exact Or.inr ⟨by simp [hp], by simp⟩
        · exact Or.inl (List.mem_cons_of_mem _ h1)
      · simp only [dictInsert, hp, if_neg, not_false_iff] at h
        rcases List.mem_cons.mp h with h1 | h1
        · exact Or.inl (h1 ▸ List.mem_cons_self _ _)
        · rcases ih h1 with h2 | h2
          · exact Or.inl (List.mem_cons_of_mem _ h2)
          · exact Or.inr h2

theorem dictLookup_of_mem_nodup {α β : Type} [DecidableEq α]
    {d : List (α × β)} {kv : α × β} (hnd : NoDupKeys d) (h : kv ∈ d) :
    dictLookup d kv.1 = some kv.2 := by
  induction d with
  | nil => simp at h
  | cons p rest ih =>
      simp only [NoDupKeys, dictKeys, List.map_cons, List.nodup_cons] at hnd
      rcases List.mem_cons.mp h with h1 | h2
      · subst h1
        simp [dictLookup]
      · have hk : p.1 ≠ kv.1 := by
          intro he
          exact hnd.1 (he ▸ List.mem_map_of_mem Prod.fst h2)
      
        have hnd' : NoDupKeys rest := hnd.2
        simpa [dictLookup, hk] using ih hnd' h2

/-- `dictInsert` preserves key-nodup. -/
theorem noDupKeys_dictInsert {α β : Type} [DecidableEq α]
    (d : List (α × β)) (k : α) (v : β) (h : NoDupKeys d) :
    NoDupKeys (dictInsert d k v) := by
  induction d with
  | nil => simp [dictInsert, NoDupKeys, dictKeys]
  | cons p rest ih =>
      obtain ⟨pk, pv⟩ := p
      simp only [NoDupKeys, dictKeys, List.map_cons, List.nodup_cons] at h
      by_cases hk : pk = k
      · subst hk
        simp only [dictInsert, if_pos]
        simp only [NoDupKeys, dictKeys, List.map_cons, List.nodup_cons]
        exact h
      · have hrest := ih h.2
        simp only [dictInsert, hk, if_neg, not_false_iff]
        simp only [NoDupKeys, dictKeys, List.map_cons, List.nodup_cons]
        refine ⟨?_, hrest⟩
        intro hmem
        rcases List.mem_map.mp hmem with ⟨q, hq, hq1⟩
        rcases mem_dictInsert hq with h2 | h2
        · exact h.1 (hq1 ▸ List.mem_map_of_mem Prod.fst h2)
        · exact hk (hq1 ▸ h2.1)

/-- The dict comprehension `{m.key: m for m in new_models}` has no
duplicate keys. -/
theorem newByKey_nodup (S : List ModelInfo) : NoDupKeys (newByKey S) := by
  suffices h : ∀ (acc : List (ModelKey × ModelInfo)), NoDupKeys acc →
      NoDupKeys (S.foldl (fun d m => dictInsert d m.key m) acc) by
    exact h [] (by simp [NoDupKeys, dictKeys])
  induction S with
  | nil => intro acc h; simpa using h
  | cons m rest ih =>
      intro acc h
      exact ih _ (noDupKeys_dictInsert acc m.key m h)

/-- Every entry of `{m.key: m for m in new_models}` maps a key to a model
carrying that key. -/
theorem newByKey_key_eq (S : List ModelInfo) :
    ∀ kv ∈ newByKey S, kv.2.key = kv.1 := by
  suffices h : ∀ (acc : List (ModelKey × ModelInfo)),
      (∀ kv ∈ acc, kv.2.key = kv.1) →
      ∀ kv ∈ S.foldl (fun d m => dictInsert d m.key m) acc, kv.2.key = kv.1 by
    exact h [] (by simp)
  induction S with
  | nil => intro acc h; simpa using h
  | cons m rest ih =>
      intro acc h
      refine ih _ ?_
      intro kv hkv
      rcases mem_dictInsert hkv with h1 | h1
      · exact h kv h1
      · rw [h1.2, h1.1]

/-- A key occurs in `newByKey S` exactly when some model of `S` carries it. -/
theorem newByKey_contains_iff (S : List ModelInfo) (k : ModelKey) :
    dictContains (newByKey S) k = true ↔ ∃ m ∈ S, m.key = k := by
  suffices h : ∀ (acc : List (ModelKey × ModelInfo)),
      (dictContains (S.foldl (fun d m => dictInsert d m.key m) acc) k = true ↔
        dictContains acc k = true ∨ ∃ m ∈ S, m.key = k) by
    have := h []
    simpa [newByKey, dictContains, dictLookup] using this
  induction S with
  | nil => intro acc; simp
  | cons m rest ih =>
      intro acc
      simp only [List.foldl_cons]
      rw [ih]
      constructor
      · rintro (hc | hex)
        · rw [dictContains_insert] at hc
          rcases Bool.or_eq_true _ _ |>.mp hc with h1 | h1
          · exact Or.inl h1
          · right
            exact ⟨m, List.mem_cons_self _ _, (of_decide_eq_true h1).symm⟩
        · exact Or.inr ⟨hex.choose, List.mem_cons_of_mem _ hex.choose_spec.1, hex.choose_spec.2⟩
      · rintro (hc | ⟨m', hm', hk⟩)
        · left
          rw [dictContains_insert, hc]
          simp
        · rcases List.mem_cons.mp hm' with h1 | h1
          · left
            rw [dictContains_insert]
            subst h1
            simp [hk]
          · exact Or.inr ⟨m', h1, hk⟩

theorem enqueueNoDuplicate_models (st : StoreState) (m : ModelInfo) :
    (enqueueNoDuplicate st m).models = st.models := by
  unfold enqueueNoDuplicate
  split <;> rfl

theorem enqueueNoDuplicate_enriched (st : StoreState) (m : ModelInfo) :
    (enqueueNoDuplicate st m).enriched = st.enriched := by
  unfold enqueueNoDuplicate
  split <;> rfl

theorem enqueueNoDuplicate_ts (st : StoreState) (m : ModelInfo) :
    (enqueueNoDuplicate st m).last_update_ts = st.last_update_ts := by
  unfold enqueueNoDuplicate
  split <;> rfl

/-- In both branches of the add-or-update loop body, the models dict ends up
as `dictInsert models key m` (the enqueue touches only queue state). -/
theorem addOrUpdate_models (st : StoreState) (kv : ModelKey × ModelInfo) :
    (addOrUpdate st kv).models = dictInsert st.models kv.1 kv.2 := by
  unfold addOrUpdate
  split
  · rfl
  · rw [enqueueNoDuplicate_models]

theorem addOrUpdate_enriched (st : StoreState) (kv : ModelKey × ModelInfo) :
    (addOrUpdate st kv).enriched = st.enriched := by
  unfold addOrUpdate
  split
  · rfl
  · rw [enqueueNoDuplicate_enriched]

theorem addOrUpdate_ts (st : StoreState) (kv : ModelKey × ModelInfo) :
    (addOrUpdate st kv).last_update_ts = st.last_update_ts := by
  unfold addOrUpdate
  split
  · rfl
  · rw [enqueueNoDuplicate_ts]

theorem foldAdd_enriched (D : List (ModelKey × ModelInfo)) (st : StoreState) :
    (D.foldl addOrUpdate st).enriched = st.enriched := by
  induction D generalizing st with
  | nil => rfl
  | cons kv rest ih => rw [List.foldl_cons, ih, addOrUpdate_enriched]

theorem foldAdd_ts (D : List (ModelKey × ModelInfo)) (st : StoreState) :
    (D.foldl addOrUpdate st).last_update_ts = st.last_update_ts := by
  induction D generalizing st with
  | nil => rfl
  | cons kv rest ih => rw [List.foldl_cons, ih, addOrUpdate_ts]

/-- Keys not mentioned by the incoming dict keep their models-dict binding
through the add-or-update loop. -/
theorem foldAdd_lookup_not_contains (D : List (ModelKey × ModelInfo)) (st : StoreState)
    (k : ModelKey) (h : dictContains D k = false) :
    dictLookup (D.foldl addOrUpdate st).models k = dictLookup st.models k := by
  induction D generalizing st with
  | nil => rfl
  | cons kv rest ih =>
      have hk : kv.1 ≠ k := by
        intro he
        simp [dictContains, dictLookup, he] at h
      have hrest : dictContains rest k = false := by
        simpa [dictContains, dictLookup, hk] using h
      rw [List.foldl_cons, ih _ hrest, addOrUpdate_models,
        dictLookup_insert_ne _ _ _ _ hk]

/-- Each binding of a nodup incoming dict ends up in the models dict. -/
theorem foldAdd_lookup_of_lookup (D : List (ModelKey × ModelInfo)) (st : StoreState)
    (k : ModelKey) (v : ModelInfo) (hnd : NoDupKeys D) (h : dictLookup D k = some v) :
    dictLookup (D.foldl addOrUpdate st).models k = some v := by
  induction D generalizing st with
  | nil => simp [dictLookup] at h
  | cons kv rest ih =>
      simp only [NoDupKeys, dictKeys, List.map_cons, List.nodup_cons] at hnd
      by_cases hk : kv.1 = k
      · have hv : v = kv.2 := by simpa [dictLookup, hk] using h.symm
        subst hv
        subst hk
        have hrest : dictContains rest kv.1 = false := by
          by_contra hc
          exact hnd.1 (mem_dictKeys_of_contains (Bool.of_not_eq_false hc))
        rw [List.foldl_cons, foldAdd_lookup_not_contains _ _ _ hrest,
          addOrUpdate_models, dictLookup_insert_self]
      · have h' : dictLookup rest k = some v := by simpa [dictLookup, hk] using h
        rw [List.foldl_cons]
        exact ih _ hnd.2 h'

/-- Membership of the models dict only grows along the add-or-update loop. -/
theorem foldAdd_contains_mono (D : List (ModelKey × ModelInfo)) (st : StoreState)
    (k : ModelKey) (h : dictContains st.models k = true) :
    dictContains (D.foldl addOrUpdate st).models k = true := by
  induction D generalizing st with
  | nil => exact h
  | cons kv rest ih =>
      rw [List.foldl_cons]
      refine ih _ ?_
      rw [addOrUpdate_models, dictContains_insert, h]
      rfl

/-- Every key of the models dict after the loop was already present or is a
key of the incoming dict. -/
theorem foldAdd_keys (D : List (ModelKey × ModelInfo)) (st : StoreState) :
    ∀ q ∈ (D.foldl addOrUpdate st).models,
      q.1 ∈ dictKeys st.models ∨ dictContains D q.1 = true := by
  induction D generalizing st with
  | nil => intro q hq; exact Or.inl (List.mem_map_of_mem Prod.fst hq)
  | cons kv rest ih =>
      intro q hq
      rw [List.foldl_cons] at hq
      rcases ih _ q hq with h1 | h1
      · rw [addOrUpdate_models] at h1
        rcases List.mem_map.mp h1 with ⟨q', hq', hq1⟩
        rcases mem_dictInsert hq' with h2 | h2
        · exact Or.inl (hq1 ▸ List.mem_map_of_mem Prod.fst h2)
        · right
          simp [dictContains, dictLookup, hq1 ▸ h2.1]
      · right
        by_cases hk : kv.1 = q.1
        · simp [dictContains, dictLookup, hk]
        · simpa [dictContains, dictLookup, hk] using h1

/-- If a key is already stored when the add-or-update loop starts, the loop
neither queues it nor unqueues it, and the queue entries carrying it are
unchanged.  (Only genuinely new keys are enqueued.) -/
theorem foldAdd_queue_frame (D : List (ModelKey × ModelInfo)) (st : StoreState)
    (k : ModelKey) (HD : ∀ kv ∈ D, kv.2.key = kv.1) (h : dictContains st.models k = true) :
    ((k ∈ (D.foldl addOrUpdate st).queued_keys ↔ k ∈ st.queued_keys) ∧
      (D.foldl addOrUpdate st).queue.filter (fun m => m.key = k) =
        st.queue.filter (fun m => m.key = k)) := by
  induction D generalizing st with
  | nil => exact ⟨Iff.rfl, rfl⟩
  | cons kv rest ih =>
      rw [List.foldl_cons]
      have hcont : dictContains (addOrUpdate st kv).models k = true := by
        rw [addOrUpdate_models, dictContains_insert, h]
        rfl
      have step := ih (addOrUpdate st kv) (fun q hq => HD q (List.mem_cons_of_mem _ hq)) hcont
      -- the single step: either plain replace, or enqueue of a key ≠ k
      have hstep : (k ∈ (addOrUpdate st kv).queued_keys ↔ k ∈ st.queued_keys) ∧
          (addOrUpdate st kv).queue.filter (fun m => m.key = k) =
            st.queue.filter (fun m => m.key = k) := by
        unfold addOrUpdate
        split
        · exact ⟨Iff.rfl, rfl⟩
        · rename_i hnew
          have hkk : kv.1 ≠ k := by
            intro he
            exact hnew (he ▸ h)
          have hmk : kv.2.key ≠ k := by
            rw [HD kv (List.mem_cons_self _ _)]
            exact hkk
          unfold enqueueNoDuplicate
          split
          · exact ⟨Iff.rfl, rfl⟩
          · refine ⟨?_, ?_⟩
            · simp only [List.mem_cons]
              constructor
              · rintro (h1 | h1)
                · exact absurd h1.symm hmk
                · exact h1
              · exact Or.inr
            · simp [List.filter_append, hmk]
      exact ⟨step.1.trans hstep.1, step.2.trans hstep.2⟩

/-- The add-or-update loop never enqueues a key that no incoming model
carries. -/
theorem foldAdd_qk_not_mem (D : List (ModelKey × ModelInfo)) (st : StoreState)
    (k : ModelKey) (h1 : k ∉ st.queued_keys) (h2 : ∀ kv ∈ D, kv.2.key ≠ k) :
    k ∉ (D.foldl addOrUpdate st).queued_keys := by
  induction D generalizing st with
  | nil => exact h1
  | cons kv rest ih =>
      rw [List.foldl_cons]
      refine ih _ ?_ (fun q hq => h2 q (List.mem_cons_of_mem _ hq))
      unfold addOrUpdate
      split
      · exact h1
      · unfold enqueueNoDuplicate
        split
        · exact h1
        · intro hmem
          rcases List.mem_cons.mp hmem with he | he
          · exact h2 kv (List.mem_cons_self _ _) he.symm
          · exact h1 he

/-- When every incoming binding is already stored with exactly the incoming
value, the add-or-update loop is the identity. -/
theorem foldAdd_id (D : List (ModelKey × ModelInfo)) (st : StoreState)
    (h : ∀ kv ∈ D, dictLookup st.models kv.1 = some kv.2) :
    D.foldl addOrUpdate st = st := by
  induction D with
  | nil => rfl
  | cons kv rest ih =>
      have hkv := h kv (List.mem_cons_self _ _)
      have hcont : dictContains st.models kv.1 = true := by
        simp [dictContains, hkv]
      have hstep : addOrUpdate st kv = st := by
        unfold addOrUpdate
        rw [if_pos hcont, dictInsert_eq_of_lookup _ _ _ hkv]
      rw [List.foldl_cons, hstep]
      exact ih (fun q hq => h q (List.mem_cons_of_mem _ hq))

theorem dictLookup_filter_none {α β : Type} [DecidableEq α]
    (d : List (α × β)) (p : α → Bool) (k : α) (hk : p k = false) :
    dictLookup (d.filter (fun e => p e.1)) k = none := by
  induction d with
  | nil => rfl
  | cons e rest ih =>
      by_cases he : e.1 = k
      · subst he
        simp [List.filter, hk, ih]
      · by_cases hp : p e.1
        · simp [List.filter, hp, dictLookup, he, ih]
        · simp [List.filter, hp, ih]

theorem removedKeys_mem (st : StoreState) (D : List (ModelKey × ModelInfo)) (k : ModelKey) :
    k ∈ removedKeys st D ↔ k ∈ dictKeys st.models ∧ dictContains D k = false := by
  unfold removedKeys
  rw [List.mem_filter]
  simp

/-- Components of `dropRemoved` for a key that the incoming dict still
carries. -/
theorem dropRemoved_models_lookup (st : StoreState) (D : List (ModelKey × ModelInfo))
    (k : ModelKey) (hk : dictContains D k = true) :
    dictLookup (dropRemoved st D).models k = dictLookup st.models k := by
  have hnot : k ∉ removedKeys st D := by
    rw [removedKeys_mem]
    rintro ⟨-, hfalse⟩
    rw [hk] at hfalse
    cases hfalse
  simpa [dropRemoved] using dictLookup_filter_key st.models
    (fun j => decide (¬ j ∈ removedKeys st D)) k (by simpa using hnot)

theorem dropRemoved_queue (st : StoreState) (D : List (ModelKey × ModelInfo)) :
    (dropRemoved st D).queue = st.queue := rfl

/-- The models dict after `update_models` holds every incoming binding. -/
theorem updateModels_models_lookup_incoming (st : StoreState) (S : List ModelInfo)
    (now : Int) (k : ModelKey) (v : ModelInfo)
    (h : dictLookup (newByKey S) k = some v) :
    dictLookup (updateModels st S now).models k = some v := by
  unfold updateModels
  exact foldAdd_lookup_of_lookup _ _ _ _ (newByKey_nodup S) h

theorem not_mem_removedKeys_of_contains (st : StoreState)
    (D : List (ModelKey × ModelInfo)) (k : ModelKey) (hk : dictContains D k = true) :
    k ∉ removedKeys st D := by
  rw [removedKeys_mem]
  rintro ⟨-, hfalse⟩
  rw [hk] at hfalse
  cases hfalse

/-!
## Concrete fixtures used by witnesses and counterexamples
-/

def provA : ProviderConfig :=
  { base_url := "https://a.example/v1", internal_base_url := "https://a.example/v1",
    api_key := none, files_size_gatherer := none }

def keyA : ModelKey := { provider := provA, id := "alpha" }

def miOld : ModelInfo := { key := keyA, raw := [("id", Json.str "alpha")] }

def miNew : ModelInfo :=
  { key := keyA, raw := [("id", Json.str "alpha"), ("name", Json.str "new")] }

def emA : EnrichedModel := { key := keyA, enriched := some [("summary", Json.str "s")] }

/-- A store that has discovered `miOld` (its key is still queued). -/
def stQueued : StoreState := updateModels initStore [miOld] 1

/-- The same store after the enrichment loop popped the queued model. -/
def stPopped : StoreState := (getEnrichmentBatch stQueued 1).2

/-!
## Claims C1, C3, C4, C10
-/

/-- Claim C1, counterexample.  `update_models` receives, for the stored key
`keyA`, an incoming model whose provider-sourced fields (`raw`) differ from
the stored ones, and the key is not currently queued.  The stored model is
replaced, but the key is NOT re-enqueued: afterwards both `queued_keys` and
the queue are still empty, contradicting the claimed
"replace **and** re-enqueue" behaviour. -/
theorem claim_C1_counterexample :
    miOld.raw ≠ miNew.raw ∧
    dictLookup stPopped.models keyA = some miOld ∧
    stPopped.queued_keys = [] ∧ stPopped.queue = [] ∧
    dictLookup (updateModels stPopped [miNew] 2).models keyA = some miNew ∧
    (updateModels stPopped [miNew] 2).queued_keys = [] ∧
    (updateModels stPopped [miNew] 2).queue = [] := by
  decide

/-- Claim C1, amended.  For a key present both in the store and among the
incoming models, `update_models` always replaces the stored model with the
incoming one (whether or not the provider-sourced fields differ), and never
re-enqueues the key: its membership in `queued_keys` and its entries in the
queue are exactly as before the call. -/
theorem claim_C1_amended (st : StoreState) (S : List ModelInfo) (now : Int)
    (k : ModelKey)
    (hstored : dictContains st.models k = true)
    (hincoming : dictContains (newByKey S) k = true) :
    dictLookup (updateModels st S now).models k = dictLookup (newByKey S) k ∧
    (k ∈ (updateModels st S now).queued_keys ↔ k ∈ st.queued_keys) ∧
    (updateModels st S now).queue.filter (fun m => m.key = k) =
      st.queue.filter (fun m => m.key = k) := by
  obtain ⟨v, hv⟩ := Option.isSome_iff_exists.mp hincoming
  have hdropLookup := dropRemoved_models_lookup st (newByKey S) k hincoming
  have hcont : dictContains (dropRemoved st (newByKey S)).models k = true := by
    rw [dictContains, hdropLookup]
    exact hstored
  have frame := foldAdd_queue_frame (newByKey S) (dropRemoved st (newByKey S)) k
    (newByKey_key_eq S) hcont
  refine ⟨?_, ?_, ?_⟩
  · rw [updateModels_models_lookup_incoming st S now k v hv, hv]
  · have hqk : (k ∈ (dropRemoved st (newByKey S)).queued_keys ↔ k ∈ st.queued_keys) := by
      simp only [dropRemoved, List.mem_filter]
      have := not_mem_removedKeys_of_contains st (newByKey S) k hincoming
      simp [this]
    exact (frame.1.trans hqk)
  · rw [show (updateModels st S now).queue =
        ((newByKey S).foldl addOrUpdate (dropRemoved st (newByKey S))).queue from rfl,
      frame.2, dropRemoved_queue]

/-- Witness for C1's amended theorem at the concrete fixture. -/
theorem claim_C1_witness :
    dictContains stQueued.models keyA = true ∧
    dictContains (newByKey [miNew]) keyA = true ∧
    (dictLookup (updateModels stQueued [miNew] 2).models keyA =
        dictLookup (newByKey [miNew]) keyA ∧
      (keyA ∈ (updateModels stQueued [miNew] 2).queued_keys ↔ keyA ∈ stQueued.queued_keys) ∧
      (updateModels stQueued [miNew] 2).queue.filter (fun m => m.key = keyA) =
        stQueued.queue.filter (fun m => m.key = keyA)) :=
  ⟨by decide, by decide, claim_C1_amended stQueued [miNew] 2 keyA (by decide) (by decide)⟩

/-- Claim C3: refresh is idempotent.  Calling `update_models` twice with the
same list leaves `models`, `enriched`, the queue and `queued_keys` exactly
as after the first call (only the timestamp is re-stamped). -/
theorem claim_C3 (st : StoreState) (S : List ModelInfo) (now1 now2 : Int) :
    (updateModels (updateModels st S now1) S now2).models =
      (updateModels st S now1).models ∧
    (updateModels (updateModels st S now1) S now2).enriched =
      (updateModels st S now1).enriched ∧
    (updateModels (updateModels st S now1) S now2).queue =
      (updateModels st S now1).queue ∧
    (updateModels (updateModels st S now1) S now2).queued_keys =
      (updateModels st S now1).queued_keys := by
  set st1 := updateModels st S now1 with hst1
  -- every key of st1.models is a key of `newByKey S`
  have hkeys : ∀ k ∈ dictKeys st1.models, dictContains (newByKey S) k = true := by
    intro k hk
    rcases List.mem_map.mp hk with ⟨q, hq, hq1⟩
    have hq' : q ∈ ((newByKey S).foldl addOrUpdate (dropRemoved st (newByKey S))).models := hq
    rcases foldAdd_keys _ _ q hq' with h1 | h1
    · -- keys surviving the drop pass were kept exactly because they are incoming
      rcases List.mem_map.mp h1 with ⟨q2, hq2, hq21⟩
      have hq2' := List.mem_filter.mp hq2
      have hq2mem : q2.1 ∈ dictKeys st.models := List.mem_map_of_mem Prod.fst hq2'.1
      have : ¬ q2.1 ∈ removedKeys st (newByKey S) := by simpa using hq2'.2
      rw [removedKeys_mem] at this
      rcases Bool.eq_false_or_eq_true (dictContains (newByKey S) q2.1) with ht | hf
      · rw [← hq1, ← hq21]; exact ht
      · exact absurd ⟨hq2mem, hf⟩ this
    · rw [← hq1]; exact h1
  -- hence nothing is removed by the second call
  have hrem : removedKeys st1 (newByKey S) = [] := by
    rw [removedKeys]
    apply List.filter_eq_nil_iff.mpr
    intro k hk
    simp [hkeys k hk]
  have hdrop : dropRemoved st1 (newByKey S) = st1 := by
    unfold dropRemoved
    rw [hrem]
    cases st1
    simp
  -- and every incoming binding is already stored with the incoming value
  have hlook : ∀ kv ∈ newByKey S, dictLookup st1.models kv.1 = some kv.2 := by
    intro kv hkv
    exact updateModels_models_lookup_incoming st S now1 kv.1 kv.2
      (dictLookup_of_mem_nodup (newByKey_nodup S) hkv)
  have hfold : (newByKey S).foldl addOrUpdate (dropRemoved st1 (newByKey S)) = st1 := by
    rw [hdrop]
    exact foldAdd_id _ _ hlook
  refine ⟨?_, ?_, ?_, ?_⟩ <;>
    simp only [updateModels, hfold]

/-- Claim C4: removal cascades.  A stored key absent from the
`update_models` argument is removed from `models` and from `queued_keys`,
and a later `apply_enrichment` carrying that key leaves the store unchanged
(unknown keys are ignored). -/
theorem claim_C4 (st : StoreState) (S : List ModelInfo) (now : Int)
    (k : ModelKey) (em : EnrichedModel)
    (hstored : dictContains st.models k = true)
    (hgone : ∀ m ∈ S, m.key ≠ k)
    (hem : em.key = k) :
    dictLookup (updateModels st S now).models k = none ∧
    k ∉ (updateModels st S now).queued_keys ∧
    applyEnrichment (updateModels st S now) [em] = updateModels st S now := by
  have hnc : dictContains (newByKey S) k = false := by
    rcases Bool.eq_false_or_eq_true (dictContains (newByKey S) k) with ht | hf
    · rcases (newByKey_contains_iff S k).mp ht with ⟨m, hm, hmk⟩
      exact absurd hmk (hgone m hm)
    · exact hf
  have hremoved : k ∈ removedKeys st (newByKey S) := by
    rw [removedKeys_mem]
    exact ⟨mem_dictKeys_of_contains hstored, hnc⟩
  have hmodels : dictLookup (updateModels st S now).models k = none := by
    have hdropped : dictLookup (dropRemoved st (newByKey S)).models k = none := by
      unfold dropRemoved
      exact dictLookup_filter_none st.models
        (fun j => decide (¬ j ∈ removedKeys st (newByKey S))) k (by simpa using hremoved)
    calc dictLookup (updateModels st S now).models k
        = dictLookup ((newByKey S).foldl addOrUpdate
            (dropRemoved st (newByKey S))).models k := rfl
      _ = dictLookup (dropRemoved st (newByKey S)).models k :=
            foldAdd_lookup_not_contains _ _ _ hnc
      _ = none := hdropped
  refine ⟨hmodels, ?_, ?_⟩
  · have hq1 : k ∉ (dropRemoved st (newByKey S)).queued_keys := by
      simp only [dropRemoved, List.mem_filter]
      rintro ⟨-, habs⟩
      simp at habs
      exact habs hremoved
    have hnotkey : ∀ kv ∈ newByKey S, kv.2.key ≠ k := by
      intro kv hkv
      rw [newByKey_key_eq S kv hkv]
      intro he
      have hmem := dictLookup_isSome_of_mem hkv
      rw [he, hnc] at hmem
      cases hmem
    exact foldAdd_qk_not_mem _ _ _ hq1 hnotkey
  · show List.foldl _ (updateModels st S now) [em] = updateModels st S now
    have hcontains : dictContains (updateModels st S now).models em.key = false := by
      rw [hem, dictContains, hmodels]
      rfl
    simp only [List.foldl_cons, List.foldl_nil, hcontains]
    rw [if_neg]
    simp [hcontains]

/-- Witness for C4 at the concrete fixture: `keyA` is stored, the refresh
delivers an empty list, and a late enrichment result for `keyA` is
ignored. -/
theorem claim_C4_witness :
    dictContains stQueued.models keyA = true ∧
    (∀ m ∈ ([] : List ModelInfo), m.key ≠ keyA) ∧
    emA.key = keyA ∧
    (dictLookup (updateModels stQueued [] 2).models keyA = none ∧
      keyA ∉ (updateModels stQueued [] 2).queued_keys ∧
      applyEnrichment (updateModels stQueued [] 2) [emA] = updateModels stQueued [] 2) :=
  ⟨by decide, by simp, by decide,
    claim_C4 stQueued [] 2 keyA emA (by decide) (by simp) (by decide)⟩

/-- Claim C10: `update_models` never touches the enrichment recorded for a
surviving key — the `enriched` entry of a key that is stored and also among
the incoming models is identical before and after the call. -/
theorem claim_C10 (st : StoreState) (S : List ModelInfo) (now : Int) (k : ModelKey)
    (hstored : dictContains st.models k = true)
    (hsurvives : ∃ m ∈ S, m.key = k) :
    dictLookup (updateModels st S now).enriched k = dictLookup st.enriched k := by
  have hc : dictContains (newByKey S) k = true := (newByKey_contains_iff S k).mpr hsurvives
  have hnot : k ∉ removedKeys st (newByKey S) :=
    not_mem_removedKeys_of_contains st (newByKey S) k hc
  calc dictLookup (updateModels st S now).enriched k
      = dictLookup ((newByKey S).foldl addOrUpdate
          (dropRemoved st (newByKey S))).enriched k := rfl
    _ = dictLookup (dropRemoved st (newByKey S)).enriched k := by
          rw [foldAdd_enriched]
    _ = dictLookup st.enriched k := by
          unfold dropRemoved
          exact dictLookup_filter_key st.enriched
            (fun j => decide (¬ j ∈ removedKeys st (newByKey S))) k (by simpa using hnot)

/-- Witness for C10 at the concrete fixture: a store with recorded
enrichment for `keyA` refreshed with a changed model keeps the recorded
enrichment. -/
theorem claim_C10_witness :
    dictContains (applyEnrichment stQueued [emA]).models keyA = true ∧
    (∃ m ∈ [miNew], m.key = keyA) ∧
    dictLookup (updateModels (applyEnrichment stQueued [emA]) [miNew] 2).enriched keyA =
      dictLookup (applyEnrichment stQueued [emA]).enriched keyA :=
  ⟨by decide, ⟨miNew, by simp, by decide⟩,
    claim_C10 (applyEnrichment stQueued [emA]) [miNew] 2 keyA (by decide)
      ⟨miNew, by simp, by decide⟩⟩

/-!
## Claim C2: the queue / queued_keys invariant
-/

/-- The invariant that actually holds: every key marked in `queued_keys` is
carried by some element of the queue. -/
def QueuedKeysCovered (st : StoreState) : Prop :=
  ∀ k ∈ st.queued_keys, ∃ m ∈ st.queue, m.key = k

theorem enqueueNoDuplicate_covered (st : StoreState) (m : ModelInfo)
    (h : QueuedKeysCovered st) : QueuedKeysCovered (enqueueNoDuplicate st m) := by
  unfold enqueueNoDuplicate
  split
  · exact h
  · intro k hk
    rcases List.mem_cons.mp hk with he | he
    · exact ⟨m, List.mem_append_right _ (List.mem_singleton.mpr rfl), he.symm⟩
    · rcases h k he with ⟨m2, hm2, hmk⟩
      exact ⟨m2, List.mem_append_left _ hm2, hmk⟩

theorem addOrUpdate_covered (st : StoreState) (kv : ModelKey × ModelInfo)
    (h : QueuedKeysCovered st) : QueuedKeysCovered (addOrUpdate st kv) := by
  unfold addOrUpdate
  split
  · exact h
  · exact enqueueNoDuplicate_covered _ _ h

theorem foldAdd_covered (D : List (ModelKey × ModelInfo)) (st : StoreState)
    (h : QueuedKeysCovered st) : QueuedKeysCovered (D.foldl addOrUpdate st) := by
  induction D generalizing st with
  | nil => exact h
  | cons kv rest ih =>
      rw [List.foldl_cons]
      exact ih _ (addOrUpdate_covered _ _ h)

theorem updateModels_covered (st : StoreState) (S : List ModelInfo) (now : Int)
    (h : QueuedKeysCovered st) : QueuedKeysCovered (updateModels st S now) := by
  have hdrop : QueuedKeysCovered (dropRemoved st (newByKey S)) := by
    intro k hk
    exact h k (List.mem_filter.mp hk).1
  exact foldAdd_covered (newByKey S) _ hdrop

theorem batchLoop_covered :
    ∀ (n : Nat) (st : StoreState), QueuedKeysCovered st →
      QueuedKeysCovered (batchLoop n st).2
  | 0, _, h => h
  | n + 1, st, h => by
      cases hq : st.queue with
      | nil => simpa [batchLoop, hq] using h
      | cons m rest =>
          have h' : QueuedKeysCovered
              { st with
                queue := rest
                queued_keys := st.queued_keys.filter (fun k => ¬ k = m.key) } := by
            intro k hk
            have hk' := List.mem_filter.mp hk
            have hkne : ¬ k = m.key := by simpa using hk'.2
            rcases h k hk'.1 with ⟨m2, hm2, hmk⟩
            rw [hq] at hm2
            rcases List.mem_cons.mp hm2 with he | he
            · exact absurd (he ▸ hmk).symm hkne
            · exact ⟨m2, he, hmk⟩
          have hres := batchLoop_covered n _ h'
          simpa [batchLoop, hq] using hres

theorem getEnrichmentBatch_covered (st : StoreState) (n : Int)
    (h : QueuedKeysCovered st) : QueuedKeysCovered (getEnrichmentBatch st n).2 := by
  unfold getEnrichmentBatch
  split
  · exact h
  · exact batchLoop_covered _ _ h

theorem applyEnrichment_queue_frame (ems : List EnrichedModel) (st : StoreState) :
    (applyEnrichment st ems).queue = st.queue ∧
      (applyEnrichment st ems).queued_keys = st.queued_keys := by
  induction ems generalizing st with
  | nil => exact ⟨rfl, rfl⟩
  | cons em rest ih =>
      have hstep : ∀ acc : StoreState,
          applyEnrichment acc (em :: rest) = applyEnrichment
            (if dictContains acc.models em.key then
              { acc with enriched := dictInsert acc.enriched em.key em }
            else acc) rest := by
        intro acc
        rfl
      rw [hstep st]
      split
      · exact ih _
      · exact ih _

theorem applyEnrichment_covered (st : StoreState) (ems : List EnrichedModel)
    (h : QueuedKeysCovered st) : QueuedKeysCovered (applyEnrichment st ems) := by
  intro k hk
  rw [(applyEnrichment_queue_frame ems st).2] at hk
  rw [(applyEnrichment_queue_frame ems st).1]
  exact h k hk

theorem requeueModels_covered (st : StoreState) (ms : List ModelInfo)
    (h : QueuedKeysCovered st) : QueuedKeysCovered (requeueModels st ms) := by
  induction ms generalizing st with
  | nil => exact h
  | cons m rest ih =>
      have hstep : requeueModels st (m :: rest) = requeueModels
          (if dictContains st.models m.key then enqueueNoDuplicate st m else st) rest := rfl
      rw [hstep]
      split
      · exact ih _ (enqueueNoDuplicate_covered _ _ h)
      · exact ih _ h

/-- Claim C2, amended.  The claimed inclusion fails (see the
counterexample); its converse is the invariant that every public operation
preserves from the empty store: each key in `queued_keys` is the key of
some queue element, i.e. `queued_keys ⊆ {m.key | m ∈ queue}`.  In
particular `update_models` — not only a pop — removes keys from
`queued_keys`, while the matching stale queue entries survive. -/
theorem claim_C2_amended (st : StoreState) (h : Reachable st) :
    QueuedKeysCovered st := by
  induction h with
  | init => intro k hk; cases hk
  | update S now _ ih => exact updateModels_covered _ S now ih
  | batch n _ ih => exact getEnrichmentBatch_covered _ n ih
  | apply ems _ ih => exact applyEnrichment_covered _ ems ih
  | requeue ms _ ih => exact requeueModels_covered _ ms ih
  | clear _ _ => intro k hk; cases hk

/-- Witness for C2's amended theorem on a concrete reachable store. -/
theorem claim_C2_witness : QueuedKeysCovered stQueued :=
  claim_C2_amended stQueued (Reachable.update [miOld] 1 Reachable.init)

/-- Claim C2, counterexample.  Enqueue a model via `update_models`, then
refresh with an empty list: the vanished key is discarded from
`queued_keys`, but its entry is still sitting in the queue (the queue is
never purged), so the claimed invariant "every element of `queue` also
appears in `queued_keys`" is violated on a store reachable through public
operations only — and the key left `queued_keys` without any pop. -/
theorem claim_C2_counterexample :
    Reachable (updateModels stQueued [] 2) ∧
    ¬ (∀ m ∈ (updateModels stQueued [] 2).queue,
        m.key ∈ (updateModels stQueued [] 2).queued_keys) :=
  ⟨Reachable.update [] 2 (Reachable.update [miOld] 1 Reachable.init), by decide⟩

/-!
## Python string helpers and the `json.loads` model

`_strip_markdown_fence` / `_extract_json_list`
(`services/enrich_model/_extract_json_object.py`) manipulate Python strings;
the helpers below model `str.strip` / `rstrip` / `startswith` / `endswith` /
`find` / `rfind` and slicing on the character list of a `String`.
`jsonLoads` models the strict JSON acceptance of Python's `json.loads` on
the fragment this code base exchanges: `null`, booleans, integer numerals,
strings with the single-character escapes, arrays and objects.  (Float
numerals and `\u` escapes are outside the model; no payload in this
development uses them.)
-/

def quoteChar : Char := Char.ofNat 34

def backslashChar : Char := Char.ofNat 92

def openBraceChar : Char := Char.ofNat 123

def closeBraceChar : Char := Char.ofNat 125

/-- Python `str` whitespace (the ASCII part: space, tab, LF, CR, VT, FF). -/
def isPyWs (c : Char) : Bool :=
  c = ' ' ∨ c = Char.ofNat 9 ∨ c = Char.ofNat 10 ∨ c = Char.ofNat 13 ∨
    c = Char.ofNat 11 ∨ c = Char.ofNat 12

def pyLStripList (s : List Char) : List Char := s.dropWhile isPyWs

def pyRStripList (s : List Char) : List Char := (s.reverse.dropWhile isPyWs).reverse

def pyStripList (s : List Char) : List Char := pyLStripList (pyRStripList s)

/-- `text.find(c)`: index of the first occurrence, `-1` when absent. -/
def pyFind (cs : List Char) (c : Char) : Int :=
  match cs.findIdx? (fun d => d = c) with
  | some i => (i : Int)
  | none => -1

/-- `text.rfind(c)`: index of the last occurrence, `-1` when absent. -/
def pyRFind (cs : List Char) (c : Char) : Int :=
  match cs.reverse.findIdx? (fun d => d = c) with
  | some i => ((cs.length : Int) - 1 - (i : Int))
  | none => -1

/-- JSON whitespace accepted between tokens by `json.loads`. -/
def isJsonWs (c : Char) : Bool :=
  c = ' ' ∨ c = Char.ofNat 9 ∨ c = Char.ofNat 10 ∨ c = Char.ofNat 13

def skipJsonWs (cs : List Char) : List Char := cs.dropWhile isJsonWs

/-- Consume an expected literal continuation (e.g. `ull` after `n`). -/
def dropLit : List Char → List Char → Option (List Char)
  | [], cs => some cs
  | _, [] => none
  | l :: ls, c :: cs => if c = l then dropLit ls cs else none

/-- String body parser: characters up to the closing quote, with the
single-character escapes of JSON (`\u` escapes are not modelled). -/
def parseJsonStringAux : List Char → List Char → Option (String × List Char)
  | _, [] => none
  | acc, c :: cs =>
      if c = quoteChar then some (String.mk acc.reverse, cs)
      else if c = backslashChar then
        match cs with
        | [] => none
        | e :: cs2 =>
            if e = quoteChar then parseJsonStringAux (quoteChar :: acc) cs2
            else if e = backslashChar then parseJsonStringAux (backslashChar :: acc) cs2
            else if e = '/' then parseJsonStringAux ('/' :: acc) cs2
            else if e = 'n' then parseJsonStringAux (Char.ofNat 10 :: acc) cs2
            else if e = 't' then parseJsonStringAux (Char.ofNat 9 :: acc) cs2
            else if e = 'r' then parseJsonStringAux (Char.ofNat 13 :: acc) cs2
            else if e = 'b' then parseJsonStringAux (Char.ofNat 8 :: acc) cs2
            else if e = 'f' then parseJsonStringAux (Char.ofNat 12 :: acc) cs2
            else none
      else parseJsonStringAux (c :: acc) cs

def digitsToNat (ds : List Char) : Nat :=
  ds.foldl (fun acc d => acc * 10 + (d.toNat - 48)) 0

/-- Integer numeral: `-?(0|[1-9][0-9]*)` (no fraction/exponent in the
model). -/
def parseJsonNumber (cs : List Char) : Option (Json × List Char) :=
  let neg : Bool := match cs with
    | c :: _ => c == '-'
    | [] => false
  let cs1 := if neg then cs.tail else cs
  match cs1 with
  | [] => none
  | d :: ds =>
      if d = '0' then some (Json.num 0, ds)
      else if d.isDigit then
        let digits := (d :: ds).takeWhile Char.isDigit
        let rest := (d :: ds).dropWhile Char.isDigit
        some (Json.num ((if neg then -1 else 1) * (digitsToNat digits : Int)), rest)
      else none

mutual

/-- One JSON value (fuel-indexed recursive descent). -/
def parseJsonValue : Nat → List Char → Option (Json × List Char)
  | 0, _ => none
  | _ + 1, [] => none
  | fuel + 1, c :: cs =>
      if c = 'n' then
        match dropLit ['u', 'l', 'l'] cs with
        | some rest => some (Json.null, rest)
        | none => none
      else if c = 't' then
        match dropLit ['r', 'u', 'e'] cs with
        | some rest => some (Json.bool true, rest)
        | none => none
      else if c = 'f' then
        match dropLit ['a', 'l', 's', 'e'] cs with
        | some rest => some (Json.bool false, rest)
        | none => none
      else if c = quoteChar then
        match parseJsonStringAux [] cs with
        | some (s, rest) => some (Json.str s, rest)
        | none => none
      else if c = '-' ∨ c.isDigit then parseJsonNumber (c :: cs)
      else if c = '[' then
        match skipJsonWs cs with
        | [] => none
        | d :: cs2 =>
            if d = ']' then some (Json.arr [], cs2)
            else
              match parseJsonValue fuel (d :: cs2) with
              | some (v, rest) => parseJsonArrayRest fuel rest [v]
              | none => none
      else if c = openBraceChar then
        match skipJsonWs cs with
        | [] => none
        | d :: cs2 =>
            if d = closeBraceChar then some (Json.obj [], cs2)
            else
              match parseJsonMember fuel (d :: cs2) with
              | some (k, v, rest) => parseJsonObjRest fuel rest [(k, v)]
              | none => none
      else none

/-- After a parsed array element: `, value ...` or `]`. -/
def parseJsonArrayRest : Nat → List Char → List Json → Option (Json × List Char)
  | 0, _, _ => none
  | fuel + 1, cs, acc =>
      match skipJsonWs cs with
      | [] => none
      | d :: cs2 =>
          if d = ']' then some (Json.arr acc.reverse, cs2)
          else if d = ',' then
            match parseJsonValue fuel (skipJsonWs cs2) with
            | some (v, rest) => parseJsonArrayRest fuel rest (v :: acc)
            | none => none
          else none

/-- One `"key": value` member. -/
def parseJsonMember : Nat → List Char → Option (String × Json × List Char)
  | 0, _ => none
  | fuel + 1, cs =>
      match cs with
      | [] => none
      | c :: cs1 =>
          if c = quoteChar then
            match parseJsonStringAux [] cs1 with
            | some (k, rest) =>
                match skipJsonWs rest with
                | [] => none
                | d :: cs2 =>
                    if d = ':' then
                      match parseJsonValue fuel (skipJsonWs cs2) with
                      | some (v, rest2) => some (k, v, rest2)
                      | none => none
                    else none
            | none => none
          else none

/-- After a parsed object member: `, member ...` or the closing brace. -/
def parseJsonObjRest : Nat → List Char → List (String × Json) → Option (Json × List Char)
  | 0, _, _ => none
  | fuel + 1, cs, acc =>
      match skipJsonWs cs with
      | [] => none
      | d :: cs2 =>
          if d = closeBraceChar then some (Json.obj acc.reverse, cs2)
          else if d = ',' then
            match parseJsonMember fuel (skipJsonWs cs2) with
            | some (k, v, rest) => parseJsonObjRest fuel rest ((k, v) :: acc)
            | none => none
          else none

end

/-- `json.loads`: parse one value surrounded only by whitespace. -/
def jsonLoads (s : String) : Option Json :=
  match parseJsonValue (s.length * 2 + 2) (skipJsonWs s.data) with
  | some (v, rest) => if skipJsonWs rest = [] then some v else none
  | none => none

/-- `_strip_markdown_fence(text)`: when the text starts with three backticks
and (after right-stripping) ends with three backticks, drop three characters
from each end and strip; an unreachable second branch handles a
further-fenced `json` tag; otherwise just strip.  (Note the first branch
fires for ```json fences too, leaving the `json` tag in place.) -/
def stripMarkdownFence (text : String) : String :=
  let cs := text.data
  let fence : List Char := ['`', '`', '`']
  let fenceJson : List Char := ['`', '`', '`', 'j', 's', 'o', 'n']
  if cs.length ≥ 6 ∧ fence.isPrefixOf cs ∧ fence.isSuffixOf (pyRStripList cs) then
    String.mk (pyStripList ((cs.drop 3).take (cs.length - 6)))
  else if cs.length ≥ 10 ∧ fenceJson.isPrefixOf cs ∧ fence.isSuffixOf (pyRStripList cs) then
    String.mk (pyStripList ((cs.drop 7).take (cs.length - 10)))
  else
    String.mk (pyStripList cs)

/-- `_extract_json_list(text)`: strip fences (`""` when the content is
`None`), return `None` on empty text, try `json.loads` on the whole text,
and otherwise fall back to the substring between the first open brace and
the last close brace. -/
def extractJsonList (text : Option String) : Option Json :=
  let t : String := match text with
    | some s => stripMarkdownFence s
    | none => ""
  if t.data = [] then none
  else
    match jsonLoads t with
    | some v => some v
    | none =>
        let cs := t.data
        let start := pyFind cs openBraceChar
        let stop := pyRFind cs closeBraceChar
        if start = -1 ∨ stop = -1 ∨ stop ≤ start then none
        else jsonLoads (String.mk ((cs.drop start.toNat).take (stop.toNat + 1 - start.toNat)))

/-!
## Claim C9
-/

/-- Claim C9, counterexample.  The content is a JSON list wrapped in a
```json markdown fence — exactly the shape the claim says is recovered —
but the parser returns nothing: the fence stripper removes only three
leading characters, leaving the `json` tag, the full-text parse fails, and
the fallback searches only for braces, which a list does not contain. -/
theorem claim_C9_counterexample :
    jsonLoads "[1]" = some (Json.arr [Json.num 1]) ∧
    extractJsonList (some "```json\n[1]\n```") = none := by
  decide

/-- Claim C9, amended.  The parser recovers a value only when the
fence-stripped content parses as JSON in its entirety (which covers a list
in a plain ``` fence); otherwise it falls back to the substring between the
first open brace and the last close brace, so a JSON list wrapped in a
```json fence or surrounded by extra text is not recovered. -/
theorem claim_C9_amended (s : String) (v : Json)
    (h : jsonLoads (stripMarkdownFence s) = some v) :
    extractJsonList (some s) = some v := by
  have hne : (stripMarkdownFence s).data ≠ [] := by
    intro habs
    have hempty : stripMarkdownFence s = "" := by
      cases hstr : stripMarkdownFence s with
      | mk data => rw [hstr] at habs; simpa [habs] using congrArg String.mk habs
    rw [hempty] at h
    cases h
  unfold extractJsonList
  simp only [if_neg hne, h]

/-- Witness for C9's amended theorem: a plainly fenced JSON list is
recovered. -/
theorem claim_C9_witness :
    jsonLoads (stripMarkdownFence "```\n[1, 2]\n```") =
      some (Json.arr [Json.num 1, Json.num 2]) ∧
    extractJsonList (some "```\n[1, 2]\n```") =
      some (Json.arr [Json.num 1, Json.num 2]) :=
  ⟨by decide, claim_C9_amended "```\n[1, 2]\n```" (Json.arr [Json.num 1, Json.num 2])
    (by decide)⟩

/-!
## The enricher (`services/enrich_model/enrich_model.py`)

`Model` (`models.py`) is a dict subclass mirroring the provider payload:
the constructor coerces `payload["id"]` to a string, attaches the provider,
and installs a `meta` sub-dict with `meta["base_url"] = provider.base_url`.
Only the components the enrichment logic reads are modelled: the provider,
the canonical `id`, the `meta` dict and the remaining payload entries. -/

structure Model where
  provider : ProviderConfig
  id : String
  meta : List (String × Json)
  payload : List (String × Json)
  deriving DecidableEq

/-- `FILES_SIZE_FIELD` (`services/files_size/gatherer.py`). -/
def FILES_SIZE_FIELD : String := "size"

/-- `ModelMeta.base_url`: `str(self.get("base_url") or "")`.  In this system
the binding is always the provider's base-url string (installed by the
`Model` constructor and never overwritten — `_merge_enrichment` only uses
`setdefault`), so only the string case arises; a missing or falsy value
yields `""`. -/
def metaBaseUrl (meta : List (String × Json)) : String :=
  match dictLookup meta "base_url" with
  | some (Json.str s) => s
  | _ => ""

/-- The merge pass of `_merge_enrichment`: copy each field of the matching
response entry into `meta` with `setdefault` (never overwriting), skipping
the `id` field. -/
def mergeFields (meta : List (String × Json)) (fields : List (String × Json)) :
    List (String × Json) :=
  fields.foldl
    (fun m kv => if kv.1 = "id" then m else dictSetdefault m kv.1 kv.2) meta

/-- `_merge_enrichment(model, enriched_list)`: find the first response entry
that is a dict whose `id` equals the model's id and whose `base_url` equals
`meta.base_url`; merge its fields into `meta` without overwriting and stop
(`break`).  Entries that are not dicts or do not match are skipped. -/
def mergeEnrichment (model : Model) : List Json → Model
  | [] => model
  | item :: rest =>
      match item with
      | Json.obj fields =>
          if dictLookup fields "id" = some (Json.str model.id) then
            if dictLookup fields "base_url" = some (Json.str (metaBaseUrl model.meta)) then
              { model with meta := mergeFields model.meta fields }
            else mergeEnrichment model rest
          else mergeEnrichment model rest
      | _ => mergeEnrichment model rest

/-- `_get_enriched_list`: extract the JSON from the brain content; anything
that is not a list becomes `[]`. -/
def getEnrichedList (completions : Option String) : List Json :=
  match extractJsonList completions with
  | some (Json.arr xs) => xs
  | _ => []

/-- `enrich_batch(models)` with its two I/O boundaries abstracted:
`sizeOracle` stands for `gather_files_size` (the size reported by the
provider's gatherer subprocess, or `none`) and `brain` for the composite of
prompt building and `chat_completions` (the assistant content string, or
`none`).  For each model the loop fills `meta["size"]` when absent and a
size is reported, asks the brain, merges the parsed response into the
model's meta, and appends the model — matched or not — to the single
returned list. -/
def enrichBatch (sizeOracle : Model → Option Int) (brain : Model → Option String)
    (models : List Model) : List Model :=
  models.map (fun model =>
    let model1 :=
      if dictContains model.meta FILES_SIZE_FIELD then model
      else
        match sizeOracle model with
        | some n =>
            { model with meta := dictSetdefault model.meta FILES_SIZE_FIELD (Json.num n) }
        | none => model
    mergeEnrichment model1 (getEnrichedList (brain model1)))

/-!
## Claims C5 and C6
-/

/-- A model as built by the fetcher for provider `provA`. -/
def mAlpha : Model :=
  { provider := provA, id := "alpha",
    meta := [("base_url", Json.str "https://a.example/v1")],
    payload := [("id", Json.str "alpha")] }

/-- Claim C5 evaluated at the failing input: the brain answers with the
empty JSON list, so no response entry matches `mAlpha` — yet `enrich_batch`
returns the single flat list `[mAlpha]` (the unmatched model, unchanged,
among the "enriched" output).  There is no `(enriched, failed)` pair and no
separate failed list, contrary to the claim and to the repository's own
tests. -/
theorem claim_C5_code_bug :
    enrichBatch (fun _ => none) (fun _ => some "[]") [mAlpha] = [mAlpha] := by
  decide

theorem dictSetdefault_lookup_some {α β : Type} [DecidableEq α]
    (d : List (α × β)) (k k2 : α) (v : β) (v2 : β)
    (h : dictLookup d k = some v) :
    dictLookup (dictSetdefault d k2 v2) k = some v := by
  unfold dictSetdefault
  split
  · exact h
  · rename_i hnc
    have hne : k2 ≠ k := by
      intro he
      subst he
      rw [dictContains, h] at hnc
      exact hnc rfl
    rw [dictLookup_insert_ne _ _ _ _ hne]
    exact h

theorem mergeFields_lookup_some (fields : List (String × Json))
    (meta : List (String × Json)) (k : String) (v : Json)
    (h : dictLookup meta k = some v) :
    dictLookup (mergeFields meta fields) k = some v := by
  induction fields generalizing meta with
  | nil => exact h
  | cons kv rest ih =>
      show dictLookup (List.foldl _ (if kv.1 = "id" then meta else _) rest) k = some v
      split
      · exact ih meta h
      · exact ih _ (dictSetdefault_lookup_some meta k kv.1 v kv.2 h)

/-- Claim C6: merging a brain response entry into a model's meta never
overwrites an existing meta key — every binding present in `meta` before
`_merge_enrichment` is identical afterwards (new fields are only
`setdefault`-ed in). -/
theorem claim_C6 (model : Model) (enriched_list : List Json) (k : String) (v : Json)
    (h : dictLookup model.meta k = some v) :
    dictLookup (mergeEnrichment model enriched_list).meta k = some v := by
  induction enriched_list with
  | nil => exact h
  | cons item rest ih =>
      cases item with
      | null => exact ih
      | bool b => exact ih
      | num n => exact ih
      | str s => exact ih
      | arr xs => exact ih
      | obj fields =>
          show dictLookup (if _ then _ else _ : Model).meta k = some v
          split
          · split
            · exact mergeFields_lookup_some fields model.meta k v h
            · exact ih
          · exact ih

/-- Witness for C6 on the spec's own example: stored
`meta = \x7b"size": 123, "base_url": "X"\x7d`, brain entry
`\x7b"id": "m", "base_url": "X", "summary": "s", "size": 9\x7d`;
after the merge `meta.size` is still `123` while `summary` was added. -/
theorem claim_C6_witness :
    dictLookup
      (Model.mk provA "m" [("size", Json.num 123), ("base_url", Json.str "X")] []).meta
      "size" = some (Json.num 123) ∧
    dictLookup
      (mergeEnrichment
        (Model.mk provA "m" [("size", Json.num 123), ("base_url", Json.str "X")] [])
        [Json.obj [("id", Json.str "m"), ("base_url", Json.str "X"),
          ("summary", Json.str "s"), ("size", Json.num 9)]]).meta
      "size" = some (Json.num 123) ∧
    dictLookup
      (mergeEnrichment
        (Model.mk provA "m" [("size", Json.num 123), ("base_url", Json.str "X")] [])
        [Json.obj [("id", Json.str "m"), ("base_url", Json.str "X"),
          ("summary", Json.str "s"), ("size", Json.num 9)]]).meta
      "summary" = some (Json.str "s") :=
  ⟨by decide,
    claim_C6 (Model.mk provA "m" [("size", Json.num 123), ("base_url", Json.str "X")] [])
      [Json.obj [("id", Json.str "m"), ("base_url", Json.str "X"),
        ("summary", Json.str "s"), ("size", Json.num 9)]]
      "size" (Json.num 123) (by decide),
    by decide⟩

/-!
## The snapshot (`ModelStore.get_snapshot` / `_build_snapshot_entry`)
-/

def RESPONSE_META_KEY : String := "llm_aggregator"

/-- The aggregator-metadata dict of `_build_snapshot_entry`: start from
`\x7b"base_url": provider.base_url\x7d`; when enrichment data is present
(non-`None`, non-empty dict) update with all of it, then pop `id` and
`internal_base_url` from the top level. -/
def aggregatorMeta (model : ModelInfo) (enriched : Option EnrichedModel) :
    List (String × Json) :=
  let base : List (String × Json) :=
    [("base_url", Json.str model.key.provider.base_url)]
  match enriched with
  | some e =>
      match e.enriched with
      | some fields =>
          if fields = [] then base
          else
            dictPop (dictPop (fields.foldl (fun m kv => dictInsert m kv.1 kv.2) base) "id")
              "internal_base_url"
      | none => base
  | none => base

/-- `_build_snapshot_entry(model, enriched)`: copy the raw provider payload,
force the canonical `id`, default `object` to `"model"`, and attach the
aggregator metadata under `llm_aggregator`. -/
def buildSnapshotEntry (model : ModelInfo) (enriched : Option EnrichedModel) :
    List (String × Json) :=
  dictInsert
    (dictSetdefault (dictInsert model.raw "id" (Json.str model.key.id))
      "object" (Json.str "model"))
    RESPONSE_META_KEY (Json.obj (aggregatorMeta model enriched))

/-- Code-point comparison of strings (Python `str` `<`). -/
def charListLt : List Char → List Char → Bool
  | [], [] => false
  | [], _ :: _ => true
  | _ :: _, [] => false
  | a :: as, b :: bs =>
      if a.toNat < b.toNat then true
      else if b.toNat < a.toNat then false
      else charListLt as bs

def pyStrLe (a b : String) : Bool := charListLt a.data b.data || a == b

/-- Python tuple comparison on the two-string sort key. -/
def sortKeyLe (a b : String × String) : Bool :=
  charListLt a.1.data b.1.data || (a.1 == b.1 && pyStrLe a.2 b.2)

/-- The sort key of `get_snapshot`:
`(str(item["llm_aggregator"].get("base_url") or ""), str(item.get("id", "")).lower())`.
Both values are strings by construction of the entries, so only the string
cases are modelled (a missing or falsy value yields `""`). -/
def snapshotSortKey (entry : List (String × Json)) : String × String :=
  let base := match dictLookup entry RESPONSE_META_KEY with
    | some (Json.obj am) =>
        match dictLookup am "base_url" with
        | some (Json.str s) => s
        | _ => ""
    | _ => ""
  let id := match dictLookup entry "id" with
    | some (Json.str s) => s.toLower
    | _ => ""
  (base, id)

/-- Stable insertion used to model Python's stable `list.sort`. -/
def insertSorted {α : Type} (le : α → α → Bool) (x : α) : List α → List α
  | [] => [x]
  | y :: ys => if le y x then y :: insertSorted le x ys else x :: y :: ys

def stableSort {α : Type} (le : α → α → Bool) (l : List α) : List α :=
  l.foldl (fun acc x => insertSorted le x acc) []

/-- `ModelStore.get_snapshot()`: one entry per stored model (paired with its
recorded enrichment, if any), sorted by the public base-url and the
lower-cased id. -/
def getSnapshot (st : StoreState) : List (List (String × Json)) :=
  stableSort (fun e1 e2 => sortKeyLe (snapshotSortKey e1) (snapshotSortKey e2))
    (st.models.map (fun p => buildSnapshotEntry p.2 (dictLookup st.enriched p.1)))

mutual

/-- Does the literal key occur anywhere in the value, at any nesting
depth? -/
def jsonHasKey : Json → String → Bool
  | Json.null, _ => false
  | Json.bool _, _ => false
  | Json.num _, _ => false
  | Json.str _, _ => false
  | Json.arr xs, k => jsonListHasKey xs k
  | Json.obj fs, k => jsonFieldsHasKey fs k

def jsonListHasKey : List Json → String → Bool
  | [], _ => false
  | x :: xs, k => jsonHasKey x k || jsonListHasKey xs k

def jsonFieldsHasKey : List (String × Json) → String → Bool
  | [], _ => false
  | (k2, v) :: fs, k => k2 == k || jsonHasKey v k || jsonFieldsHasKey fs k

end

/-!
## Claim C7
-/

/-- A provider model whose raw `/v1/models` entry itself carries an
`internal_base_url` field (the fetcher stores upstream entries verbatim). -/
def miLeaky : ModelInfo :=
  { key := keyA,
    raw := [("id", Json.str "alpha"), ("internal_base_url", Json.str "http://secret:9000/v1")] }

/-- Enrichment whose payload binds `base_url`. -/
def emEvil : EnrichedModel :=
  { key := keyA, enriched := some [("base_url", Json.str "http://evil.example")] }

def stLeaky : StoreState :=
  applyEnrichment (updateModels initStore [miLeaky] 1) [emEvil]

/-- Claim C7, counterexample.  Snapshot purity fails on both counts:
the raw provider payload is returned verbatim, so an upstream
`internal_base_url` field appears in the snapshot dict; and
`aggregator_meta.update(enriched)` lets an enrichment `base_url` overwrite
the provider's, so the entry's aggregator meta carries a `base_url`
different from the provider's. -/
theorem claim_C7_counterexample :
    ((getSnapshot stLeaky).any fun e => jsonFieldsHasKey e "internal_base_url") = true ∧
    ((getSnapshot stLeaky).any fun e =>
      decide (dictLookup e RESPONSE_META_KEY =
        some (Json.obj [("base_url", Json.str "http://evil.example")]))) = true ∧
    "http://evil.example" ≠ provA.base_url := by
  decide

theorem dictPop_lookup_self {α β : Type} [DecidableEq α]
    (d : List (α × β)) (k : α) :
    dictLookup (dictPop d k) k = none := by
  unfold dictPop
  simp only [decide_not]
  induction d with
  | nil => rfl
  | cons p rest ih =>
      by_cases hp : p.1 = k
      · simpa [List.filter, hp] using ih
      · simp [List.filter, hp, dictLookup, ih]

theorem dictPop_lookup_ne {α β : Type} [DecidableEq α]
    (d : List (α × β)) (k k2 : α) (h : k ≠ k2) :
    dictLookup (dictPop d k2) k = dictLookup d k := by
  unfold dictPop
  simp only [decide_not]
  induction d with
  | nil => rfl
  | cons p rest ih =>
      by_cases hp : p.1 = k2
      · have hpk : p.1 ≠ k := by rw [hp]; exact fun he => h he.symm
        simp [List.filter, hp, dictLookup, hpk, Ne.symm h, ih]
      · by_cases hk : p.1 = k
        · simp [List.filter, hp, dictLookup, hk, h]
        · simp [List.filter, hp, dictLookup, hk, ih]

theorem foldInsert_lookup_not_mem {α β : Type} [DecidableEq α]
    (fields : List (α × β)) (base : List (α × β)) (k : α)
    (h : ∀ kv ∈ fields, kv.1 ≠ k) :
    dictLookup (fields.foldl (fun m kv => dictInsert m kv.1 kv.2) base) k =
      dictLookup base k := by
  induction fields generalizing base with
  | nil => rfl
  | cons kv rest ih =>
      rw [List.foldl_cons, ih _ (fun q hq => h q (List.mem_cons_of_mem _ hq)),
        dictLookup_insert_ne _ _ _ _ (h kv (List.mem_cons_self _ _))]

/-- Claim C7, amended.  What `_build_snapshot_entry` does guarantee: the
top level of the aggregator meta never carries the keys
`internal_base_url` or `id` (they are popped after the update), and
whenever the enrichment payload does not itself bind `base_url`, the
aggregator meta's `base_url` is exactly the provider's public base url.
No guarantee extends to the raw provider payload or to nested values. -/
theorem claim_C7_amended (model : ModelInfo) (enr : Option EnrichedModel)
    (hb : ∀ e fields, enr = some e → e.enriched = some fields →
      dictContains fields "base_url" = false) :
    dictContains (aggregatorMeta model enr) "internal_base_url" = false ∧
    dictContains (aggregatorMeta model enr) "id" = false ∧
    dictLookup (aggregatorMeta model enr) "base_url" =
      some (Json.str model.key.provider.base_url) := by
  match enr with
  | none => exact ⟨rfl, rfl, rfl⟩
  | some e =>
      match he : e.enriched with
      | none =>
          simp only [aggregatorMeta, he]
          exact ⟨rfl, rfl, rfl⟩
      | some fields =>
          have hbase := hb e fields rfl he
          have hne : ∀ kv ∈ fields, kv.1 ≠ "base_url" := by
            intro kv hkv he2
            have := dictLookup_isSome_of_mem hkv
            rw [he2, hbase] at this
            cases this
          simp only [aggregatorMeta, he]
          by_cases hf : fields = []
          · subst hf
            simp only [if_pos rfl]
            exact ⟨rfl, rfl, rfl⟩
          · simp only [if_neg hf]
            refine ⟨?_, ?_, ?_⟩
            · rw [dictContains, dictPop_lookup_self]
              rfl
            · rw [dictContains, dictPop_lookup_ne _ _ _ (by decide),
                dictPop_lookup_self]
              rfl
            · rw [dictPop_lookup_ne _ _ _ (by decide),
                dictPop_lookup_ne _ _ _ (by decide),
                foldInsert_lookup_not_mem _ _ _ hne]
              rfl

/-- Witness for C7's amended theorem: enrichment that does not bind
`base_url` (fixture `emA`) keeps the provider's public base url and leaks
neither `id` nor `internal_base_url` into the aggregator meta. -/
theorem claim_C7_witness :
    dictContains (aggregatorMeta miOld (some emA)) "internal_base_url" = false ∧
    dictContains (aggregatorMeta miOld (some emA)) "id" = false ∧
    dictLookup (aggregatorMeta miOld (some emA)) "base_url" =
      some (Json.str miOld.key.provider.base_url) :=
  claim_C7_amended miOld (some emA)
    (by intro e fields he hf; cases he; cases hf; decide)

/-!
## The provider fetcher (`services/model_sources.py`,
`_fetch_models_for_provider`)

Only the pure payload-processing tail of the function is embedded (the
HTTP/JSON error paths all return `[]` before it).  The function builds
models with `make_model(provider_name, provider, dict(m))`; that three-
argument constructor is not among the sources (only this caller and the
tests that exercise it are), so it is modelled from the spec below.
-/

/-- The observable result of the spec-modelled `make_model`: the provider
identity, the canonical string id, the raw entry verbatim, and the meta
base url the constructor sets. -/
structure FetchedModel where
  provider_name : String
  provider : ProviderConfig
  id : String
  raw : List (String × Json)
  meta_base_url : String
  deriving DecidableEq

/-- Modelled from the spec: the three-argument
`make_model(provider_name, provider, payload)` used by
`_fetch_models_for_provider` is missing from the sources.  Per §4.A, for
"each entry that is an object with a string `id`" it "produces one `Model`
whose `raw` is the entry and whose `meta.base_url` is set"; construction of
any other entry fails (the caller catches the exception, logs, and skips
the entry). -/
def makeModelSpec (provider_name : String) (provider : ProviderConfig)
    (payload : List (String × Json)) : Option FetchedModel :=
  match dictLookup payload "id" with
  | some (Json.str s) =>
      some { provider_name := provider_name, provider := provider, id := s,
             raw := payload, meta_base_url := provider.base_url }
  | _ => none

/-- The payload-shape dispatch of `_fetch_models_for_provider`:
`{"data": [...]}` gives the list, `{"data": {...}}` gives a singleton,
a bare list gives itself; anything else gives no raw entries (logged). -/
def parseModelsPayload (payload : Json) : List Json :=
  match payload with
  | Json.obj fields =>
      match dictLookup fields "data" with
      | some (Json.arr xs) => xs
      | some (Json.obj o) => [Json.obj o]
      | _ => []
  | Json.arr xs => xs
  | _ => []

/-- The model-construction loop: keep raw entries that are dicts containing
the key `"id"` and whose construction succeeds. -/
def fetchModelsFromPayload (provider_name : String) (provider : ProviderConfig)
    (payload : Json) : List FetchedModel :=
  (parseModelsPayload payload).filterMap (fun m =>
    match m with
    | Json.obj fields =>
        if dictContains fields "id" then makeModelSpec provider_name provider fields
        else none
    | _ => none)

/-- The spec's acceptance predicate: exactly the three payload shapes. -/
def payloadAccepted : Json → Bool
  | Json.obj fields =>
      match dictLookup fields "data" with
      | some (Json.arr _) => true
      | some (Json.obj _) => true
      | _ => false
  | Json.arr _ => true
  | _ => false

/-!
## Claim C8
-/

/-- Claim C8, counterexample.  `{"data": {}}` is an accepted shape and
yields one raw entry — but that entry is the empty dict, which has no
`id`, so zero models are produced, not "exactly one model" as claimed. -/
theorem claim_C8_counterexample :
    payloadAccepted (Json.obj [("data", Json.obj [])]) = true ∧
    parseModelsPayload (Json.obj [("data", Json.obj [])]) = [Json.obj []] ∧
    fetchModelsFromPayload "provider-1" provA (Json.obj [("data", Json.obj [])]) = [] := by
  decide

/-- Claim C8, amended.  The parser accepts exactly the three shapes
`\x7b"data": [...]\x7d`, `\x7b"data": \x7b...\x7d\x7d` (singleton) and a
bare list; any other shape yields an empty result.  From an accepted shape
it produces one `Model` per raw entry that is an object with a string
`id` — with `raw` the entry verbatim and `meta.base_url` the provider's
base url — and nothing for other entries; in particular `\x7b"data":
\x7b\x7d\x7d` yields one raw entry but zero models, because the empty
object has no `id`. -/
theorem claim_C8_amended (pn : String) (pr : ProviderConfig) (payload : Json) :
    (payloadAccepted payload = false → fetchModelsFromPayload pn pr payload = []) ∧
    fetchModelsFromPayload pn pr payload =
      (parseModelsPayload payload).filterMap (fun e =>
        match e with
        | Json.obj fields =>
            match dictLookup fields "id" with
            | some (Json.str s) =>
                some { provider_name := pn, provider := pr, id := s,
                       raw := fields, meta_base_url := pr.base_url }
            | _ => none
        | _ => none) := by
  constructor
  · intro hrej
    have hempty : parseModelsPayload payload = [] := by
      cases payload with
      | obj fields =>
          simp only [payloadAccepted] at hrej
          simp only [parseModelsPayload]
          cases hd : dictLookup fields "data" with
          | none => rfl
          | some v =>
              cases v <;> simp_all
      | arr xs => simp [payloadAccepted] at hrej
      | null => rfl
      | bool b => rfl
      | num n => rfl
      | str s2 => rfl
    unfold fetchModelsFromPayload
    rw [hempty]
    rfl
  · unfold fetchModelsFromPayload
    apply List.filterMap_congr
    intro e _
    cases e with
    | obj fields =>
        simp only
        by_cases hc : dictContains fields "id"
        · rw [if_pos hc]
          rw [dictContains] at hc
          cases hl : dictLookup fields "id" with
          | none => rw [hl] at hc; cases hc
          | some v =>
              cases v <;> simp [makeModelSpec, hl]
        · rw [if_neg hc]
          rw [dictContains] at hc
          cases hl : dictLookup fields "id" with
          | none => rfl
          | some v => rw [hl] at hc; simp at hc
    | null => rfl
    | bool b => rfl
    | num n => rfl
    | str s2 => rfl
    | arr xs => rfl

/-- Witness for C8's amended theorem: a payload of an unaccepted shape (a
bare string) produces no models. -/
theorem claim_C8_witness :
    fetchModelsFromPayload "provider-1" provA (Json.str "oops") = [] :=
  (claim_C8_amended "provider-1" provA (Json.str "oops")).1 (by decide)

end LlmAggregator
